import Mathlib

/-!
Verification of the magnet-bruxism-detection pipeline.

The development shallowly embeds the two Python source files:

* `magnet_calibration.py` — magnetometer calibration
  (`calculate_and_save_calibration`, `apply_calibration`, and the
  live-tracking reference-baseline loop), and
* `magnet_simulation.py` — the position-inversion tracking loop
  (warm-started Nelder-Mead solves) and windowed feature extraction.

Raw calibration samples are embedded as `Fin 3 → ℚ` (exact rationals
standing for the floating-point sensor values); the soft-iron
computation, which involves an eigendecomposition and square roots, is
carried out over `ℝ`, as are the tracking-stage quantities.
`numpy.linalg.lstsq` is embedded relationally by its exact
characterisation (normal equations plus membership in the row space,
which pins down the minimum-norm least-squares solution it returns) and
`numpy.linalg.eigh` by its contract (an orthogonal eigenbasis and the
resulting diagonalisation).
-/

open Matrix

/-- A raw magnetometer sample: three axis readings. -/
abbrev RawSample := Fin 3 → ℚ

/-- Minimum of a list, as computed by a fold (embeds `np.min` on a
nonempty axis; the `[]` case is an arbitrary default never reached by the
calibration code, which requires at least 50 samples). -/
def npMin : List ℚ → ℚ
  | [] => 0
  | x :: xs => xs.foldl min x

/-- Maximum of a list, as computed by a fold (embeds `np.max`). -/
def npMax : List ℚ → ℚ
  | [] => 0
  | x :: xs => xs.foldl max x

/-- The values of one axis across all samples (a column of the data array). -/
def axisVals (data : List RawSample) (j : Fin 3) : List ℚ :=
  data.map (fun p => p j)

/-- Embeds `hard_iron_offset = (max_vals + min_vals) / 2.0` from
`calculate_and_save_calibration`. -/
def hard_iron_offset (data : List RawSample) : Fin 3 → ℚ :=
  fun j => (npMax (axisVals data j) + npMin (axisVals data j)) / 2

/-- Embeds `centered_data = data - hard_iron_offset`. -/
def centered_data (data : List RawSample) : List RawSample :=
  data.map (fun p => p - hard_iron_offset data)

/-- One row of the design matrix `D`: products of the centered
coordinates, `[x², y², z², 2xy, 2xz, 2yz]`. -/
def designRow (p : RawSample) : Fin 6 → ℚ :=
  ![p 0 ^ 2, p 1 ^ 2, p 2 ^ 2, 2 * p 0 * p 1, 2 * p 0 * p 2, 2 * p 1 * p 2]

/-- The rows of the design matrix `D` built from the centered samples. -/
def designRows (data : List RawSample) : List (Fin 6 → ℚ) :=
  data.map designRow

/-- Dot product on coefficient vectors (a row of `D` against the
coefficient vector `v`). -/
def dot6 (r v : Fin 6 → ℚ) : ℚ :=
  ∑ k, r k * v k

/-- The normal matrix `Dᵀ D` of the design rows. -/
def gramM (rows : List (Fin 6 → ℚ)) : Matrix (Fin 6) (Fin 6) ℚ :=
  Matrix.of fun j k => (rows.map (fun r => r j * r k)).sum

/-- The right-hand side `Dᵀ · 1` of the normal equations (the target of
the least-squares fit is the all-ones vector). -/
def atOnes (rows : List (Fin 6 → ℚ)) : Fin 6 → ℚ :=
  fun j => (rows.map (fun r => r j)).sum

/-- The normal equations `Dᵀ D v = Dᵀ 1` characterising least-squares
solutions of `D v ≈ 1`. -/
def NormalEq (rows : List (Fin 6 → ℚ)) (v : Fin 6 → ℚ) : Prop :=
  (gramM rows).mulVec v = atOnes rows

/-- Exact characterisation of `np.linalg.lstsq(D, ones)[0]`: a
least-squares solution (normal equations) lying in the row space of `D`;
these two conditions pin down the minimum-norm least-squares solution
that `lstsq` returns. -/
def IsLstsqSol (rows : List (Fin 6 → ℚ)) (v : Fin 6 → ℚ) : Prop :=
  NormalEq rows v ∧ v ∈ Submodule.span ℚ {r : Fin 6 → ℚ | r ∈ rows}

/-- The design rows span all six coefficient directions: no nonzero
coefficient vector is orthogonal to every row.  This is the formal
reading of a rotation sweep with full 3-D orientation coverage (it is
exactly full column rank of `D`, i.e. invertibility of `Dᵀ D`). -/
def SpansFully (rows : List (Fin 6 → ℚ)) : Prop :=
  ∀ u : Fin 6 → ℚ, (∀ r ∈ rows, dot6 r u = 0) → u = 0

/-- Embeds `M = [[v0, v3, v4], [v3, v1, v5], [v4, v5, v2]]`: the symmetric
matrix assembled from the six fitted ellipsoid coefficients. -/
def assembleM (v : Fin 6 → ℚ) : Matrix (Fin 3) (Fin 3) ℚ :=
  Matrix.of ![![v 0, v 3, v 4], ![v 3, v 1, v 5], ![v 4, v 5, v 2]]

/-- Cast a rational matrix into the reals (the soft-iron stage needs real
square roots). -/
def ratM (M : Matrix (Fin 3) (Fin 3) ℚ) : Matrix (Fin 3) (Fin 3) ℝ :=
  M.map (fun x => (x : ℝ))

/-- Contract of `np.linalg.eigh(M)`: `Q` has orthonormal columns and
`M = Q · diag(lam) · Qᵀ`. (The ascending ordering of the eigenvalues is
not needed by any claim and is not modelled.) -/
def IsEigh (M Q : Matrix (Fin 3) (Fin 3) ℝ) (lam : Fin 3 → ℝ) : Prop :=
  Qᵀ * Q = 1 ∧ M = Q * Matrix.diagonal lam * Qᵀ

/-- Embeds `soft_iron_matrix = eig_vecs @ np.sqrt(np.diag(eig_vals)) @
eig_vecs.T`: the square root is applied entrywise to the diagonal matrix
of eigenvalues, with no sign check anywhere. -/
noncomputable def soft_iron_matrix (Q : Matrix (Fin 3) (Fin 3) ℝ) (lam : Fin 3 → ℝ) :
    Matrix (Fin 3) (Fin 3) ℝ :=
  Q * Matrix.diagonal (fun i => Real.sqrt (lam i)) * Qᵀ

/-- Result of `calculate_and_save_calibration`: either the error return
`(None, None)` taken when fewer than 50 samples are given, or the
computed offset and soft-iron matrix. -/
inductive CalibResult where
  | insufficientData : CalibResult
  | ok (offset : Fin 3 → ℚ) (matrix : Matrix (Fin 3) (Fin 3) ℝ) : CalibResult

/-- Big-step embedding of `calculate_and_save_calibration(data)`: with
fewer than 50 samples it fails (returns `(None, None)`); otherwise it
computes the hard-iron offset, centers the data, fits the ellipsoid
coefficients by least squares, eigendecomposes the assembled matrix `M`
and returns `Q · sqrt(Λ) · Qᵀ`.  The least-squares solution and the
eigendecomposition enter through their characterising relations. -/
inductive CalcCalibration : List RawSample → CalibResult → Prop where
  | insufficient (data : List RawSample) (h : data.length < 50) :
      CalcCalibration data CalibResult.insufficientData
  | ok (data : List RawSample) (v : Fin 6 → ℚ) (Q : Matrix (Fin 3) (Fin 3) ℝ)
      (lam : Fin 3 → ℝ) (h50 : 50 ≤ data.length)
      (hv : IsLstsqSol (designRows (centered_data data)) v)
      (heig : IsEigh (ratM (assembleM v)) Q lam) :
      CalcCalibration data (CalibResult.ok (hard_iron_offset data) (soft_iron_matrix Q lam))

/-! ### Concrete datasets -/

/-- A 49-sample dataset: one sample short of the calibration minimum. -/
def data49 : List RawSample := List.replicate 49 (fun _ => 0)

/-- 52 raw samples confined to the plane `z = 0` (zero variance along the
third axis): 13 copies each of four points of the unit circle. -/
def planar52 : List RawSample :=
  List.replicate 13 ![1, 0, 0] ++ List.replicate 13 ![-1, 0, 0] ++
    List.replicate 13 ![0, 1, 0] ++ List.replicate 13 ![0, -1, 0]

/-- The design row produced by the points `(±1, 0, 0)`. -/
def rowX : Fin 6 → ℚ := ![1, 0, 0, 0, 0, 0]

/-- The design row produced by the points `(0, ±1, 0)`. -/
def rowY : Fin 6 → ℚ := ![0, 1, 0, 0, 0, 0]

/-- The minimum-norm least-squares coefficients of the planar dataset. -/
def vP : Fin 6 → ℚ := ![1, 1, 0, 0, 0, 0]

/-- The eigenvalues of `M = diag(1, 1, 0)` fitted on the planar dataset. -/
def lamP : Fin 3 → ℝ := ![1, 1, 0]

/-- The soft-iron matrix the code computes on the planar dataset:
`diag(1, 1, 0)`, a singular matrix with the non-positive eigenvalue 0. -/
noncomputable def planarT : Matrix (Fin 3) (Fin 3) ℝ := Matrix.diagonal ![1, 1, 0]

/-- 24 rational points of the unit sphere: all coordinate permutations
and sign choices of `(1/3, 2/3, 2/3)`; the sweep covers all three axes
symmetrically. -/
def permPoints : List RawSample :=
  [![1/3, 2/3, 2/3], ![1/3, 2/3, -2/3], ![1/3, -2/3, 2/3], ![1/3, -2/3, -2/3],
   ![-1/3, 2/3, 2/3], ![-1/3, 2/3, -2/3], ![-1/3, -2/3, 2/3], ![-1/3, -2/3, -2/3],
   ![2/3, 1/3, 2/3], ![2/3, 1/3, -2/3], ![-2/3, 1/3, 2/3], ![-2/3, 1/3, -2/3],
   ![2/3, -1/3, 2/3], ![2/3, -1/3, -2/3], ![-2/3, -1/3, 2/3], ![-2/3, -1/3, -2/3],
   ![2/3, 2/3, 1/3], ![2/3, -2/3, 1/3], ![-2/3, 2/3, 1/3], ![-2/3, -2/3, 1/3],
   ![2/3, 2/3, -1/3], ![2/3, -2/3, -1/3], ![-2/3, 2/3, -1/3], ![-2/3, -2/3, -1/3]]

/-- 72 undistorted samples lying exactly on the unit sphere (three full
sweeps over `permPoints`). -/
def data72 : List RawSample := permPoints ++ permPoints ++ permPoints

/-- The exact ellipsoid coefficients of the unit sphere:
`x² + y² + z² = 1`. -/
def vSphere : Fin 6 → ℚ := ![1, 1, 1, 0, 0, 0]

/-! ### Position-inversion solver (magnet_simulation.py) -/

/-- Result of one `scipy.optimize.minimize` call: the estimate `x`, the
convergence flag `success`, and the iteration count `nit`. -/
structure OptimizeResult where
  x : Fin 3 → ℝ
  success : Bool
  nit : ℕ

/-- Modelled from the spec: the bounded-iteration core of
`scipy.optimize.minimize(objective, guess, method=Nelder-Mead,
options={maxiter: 2000})` (the library internals are not part of the
repository).  `step` abstracts one simplex update and `conv` the
termination test; the loop runs until convergence or fuel exhaustion and
always returns a result carrying a convergence flag, never an
exception. -/
def runMinimize (step : (Fin 3 → ℝ) → (Fin 3 → ℝ)) (conv : (Fin 3 → ℝ) → Bool) :
    ℕ → (Fin 3 → ℝ) → OptimizeResult
  | 0, x => ⟨x, conv x, 0⟩
  | n + 1, x =>
      if conv x then ⟨x, true, 0⟩
      else
        let r := runMinimize step conv n (step x)
        ⟨r.x, r.success, r.nit + 1⟩

/-- The iteration budget the code passes: `options={'maxiter': 2000}`. -/
def maxiter : ℕ := 2000

/-- One position solve: `minimize(objective, last_guess, args=(B_meas, ...),
method='Nelder-Mead', options={'maxiter': 2000})`.  The objective (and
hence the simplex update and termination test) depends on the measured
field `Bmeas`. -/
def solve_position (step : (Fin 3 → ℝ) → (Fin 3 → ℝ) → (Fin 3 → ℝ))
    (conv : (Fin 3 → ℝ) → (Fin 3 → ℝ) → Bool) (Bmeas guess : Fin 3 → ℝ) :
    OptimizeResult :=
  runMinimize (step Bmeas) (conv Bmeas) maxiter guess

/-- Embeds `last_guess = [0, 0, 0.01]`: the documented initial guess (jaw
closed, magnet 10 mm above the sensor). -/
noncomputable def initial_guess : Fin 3 → ℝ := ![0, 0, 0.01]

/-- The estimation loop: each measured field is solved from the previous
estimate (`last_guess = result.x` after every solve), embedding the
`for B_meas in noisy_B` loop. -/
def trackingLoop (solveFn : (Fin 3 → ℝ) → (Fin 3 → ℝ) → (Fin 3 → ℝ)) :
    List (Fin 3 → ℝ) → (Fin 3 → ℝ) → List (Fin 3 → ℝ)
  | [], _ => []
  | B :: rest, guess => solveFn B guess :: trackingLoop solveFn rest (solveFn B guess)

/-- Embeds `estimated_positions`: the tracking loop run over the measured
fields, seeded with `initial_guess`, each solve warm-started from the
previous solve's `result.x`. -/
noncomputable def estimated_positions (step : (Fin 3 → ℝ) → (Fin 3 → ℝ) → (Fin 3 → ℝ))
    (conv : (Fin 3 → ℝ) → (Fin 3 → ℝ) → Bool) (noisyB : List (Fin 3 → ℝ)) :
    List (Fin 3 → ℝ) :=
  trackingLoop (fun B g => (solve_position step conv B g).x) noisyB initial_guess

/-! ### Live tracking (magnet_calibration.py, stage 2) -/

/-- Embeds `apply_calibration(raw_reading, offset, matrix) =
(raw - offset) @ matrix`. -/
noncomputable def apply_calibration (raw offset : Fin 3 → ℝ)
    (matrix : Matrix (Fin 3) (Fin 3) ℝ) : Fin 3 → ℝ :=
  Matrix.vecMul (raw - offset) matrix

/-- Embeds `reference_baseline = np.mean(reference_readings, axis=0)`
where each reference reading is calibrated as it is captured. -/
noncomputable def reference_baseline (rawRefs : List (Fin 3 → ℝ)) (offset : Fin 3 → ℝ)
    (matrix : Matrix (Fin 3) (Fin 3) ℝ) : Fin 3 → ℝ :=
  fun i => ((rawRefs.map (fun r => apply_calibration r offset matrix)).sum) i / rawRefs.length

/-- Embeds `field_delta = calibrated_reading - reference_baseline`. -/
noncomputable def field_delta (raw offset : Fin 3 → ℝ) (matrix : Matrix (Fin 3) (Fin 3) ℝ)
    (baseline : Fin 3 → ℝ) : Fin 3 → ℝ :=
  apply_calibration raw offset matrix - baseline

/-- The live-tracking loop of `live_tracking_demo`: capture the baseline
from the reference readings, then emit one field delta per raw reading. -/
noncomputable def live_tracking (rawRefs rawStream : List (Fin 3 → ℝ)) (offset : Fin 3 → ℝ)
    (matrix : Matrix (Fin 3) (Fin 3) ℝ) : List (Fin 3 → ℝ) :=
  rawStream.map (fun raw =>
    field_delta raw offset matrix (reference_baseline rawRefs offset matrix))

/-! ### Feature extraction (magnet_simulation.py) -/

/-- The one-sided frequency grid of `scipy.signal.welch(x, fs, nperseg)`:
bin `k` sits at `k · fs / nperseg` Hz, for `k = 0 .. nperseg/2`. -/
def welchFreq (fs nperseg k : ℕ) : ℚ :=
  (k * fs : ℚ) / nperseg

/-- The indices selected by `idx = (freq >= 1) & (freq <= 2)`, stated on
integers (`nperseg ≤ k·fs` and `k·fs ≤ 2·nperseg` say exactly
`1 ≤ k·fs/nperseg ≤ 2` for positive `nperseg`). -/
def bandIdx (fs nperseg : ℕ) : List ℕ :=
  (List.range (nperseg / 2 + 1)).filter
    (fun k => decide (nperseg ≤ k * fs ∧ k * fs ≤ 2 * nperseg))

/-- Embeds `power = np.sum(psd[idx]) * 1e12` with
`freq, psd = welch(window_B[:, 0], fs=50, nperseg=window_size)`: the PSD
estimate itself (`psdFn`, a function of the signal, the sampling rate
and the segment length) abstracts the Welch internals of scipy, which
are not part of the repository; the surrounding selection, summation and
scaling are the code's. -/
def spectral_power_feature (psdFn : List ℝ → ℕ → ℕ → ℕ → ℝ)
    (windowB : List (Fin 3 → ℝ)) (wsize : ℕ) : ℝ :=
  ((bandIdx 50 wsize).map (psdFn (windowB.map (fun b => b 0)) 50 wsize)).sum * 1e12

/-- The number of windows the feature loop
`for i in range(0, len(t) - window_size, window_size)` makes. -/
def numWindows (n w : ℕ) : ℕ :=
  ((n - w) + (w - 1)) / w

/-- The start indices of the feature windows: `range(0, n - w, w)`. -/
def window_starts (n w : ℕ) : List ℕ :=
  (List.range (numWindows n w)).map (fun k => k * w)

/-- The feature windows themselves: `B[i : i + window_size]` for each
start index. -/
def feature_windows {α : Type} (B : List α) (w : ℕ) : List (List α) :=
  (window_starts B.length w).map (fun s => (B.drop s).take w)

/-! ### Constants used by closed witnesses -/

/-- A trivial simplex update used to instantiate the solver model. -/
def wStep : (Fin 3 → ℝ) → (Fin 3 → ℝ) → (Fin 3 → ℝ) := fun _ g => g

/-- A termination test that accepts immediately. -/
def wConv : (Fin 3 → ℝ) → (Fin 3 → ℝ) → Bool := fun _ _ => true

/-- A concrete measured field for the tracking witnesses. -/
def wB : Fin 3 → ℝ := fun _ => 0

/-- A concrete raw reference reading for the live-tracking witness. -/
def wRef : Fin 3 → ℝ := fun _ => 1

/-! ### Fold lemmas for the per-axis minimum and maximum -/

lemma foldl_min_le_init (l : List ℚ) : ∀ a : ℚ, l.foldl min a ≤ a := by
  induction l with
  | nil => intro a; simp
  | cons x xs ih =>
      intro a
      calc (x :: xs).foldl min a = xs.foldl min (min a x) := rfl
        _ ≤ min a x := ih (min a x)
        _ ≤ a := min_le_left a x

lemma foldl_min_le_mem (l : List ℚ) : ∀ a x, x ∈ l → l.foldl min a ≤ x := by
  induction l with
  | nil => intro a x hx; cases hx
  | cons y ys ih =>
      intro a x hx
      rcases List.mem_cons.mp hx with hxy | hxs
      · subst hxy
        calc (x :: ys).foldl min a = ys.foldl min (min a x) := rfl
          _ ≤ min a x := foldl_min_le_init ys (min a x)
          _ ≤ x := min_le_right a x
      · exact ih (min a y) x hxs

lemma foldl_min_cases (l : List ℚ) : ∀ a, l.foldl min a = a ∨ l.foldl min a ∈ l := by
  induction l with
  | nil => intro a; left; rfl
  | cons y ys ih =>
      intro a
      have h : (y :: ys).foldl min a = ys.foldl min (min a y) := rfl
      rcases ih (min a y) with heq | hmem
      · rcases min_choice a y with hma | hmy
        · left; rw [h, heq, hma]
        · right; rw [h, heq, hmy]; exact List.mem_cons_self y ys
      · right; rw [h]; exact List.mem_cons_of_mem y hmem

lemma foldl_max_init_le (l : List ℚ) : ∀ a : ℚ, a ≤ l.foldl max a := by
  induction l with
  | nil => intro a; simp
  | cons x xs ih =>
      intro a
      calc a ≤ max a x := le_max_left a x
        _ ≤ xs.foldl max (max a x) := ih (max a x)
        _ = (x :: xs).foldl max a := rfl

lemma foldl_max_mem_le (l : List ℚ) : ∀ a x, x ∈ l → x ≤ l.foldl max a := by
  induction l with
  | nil => intro a x hx; cases hx
  | cons y ys ih =>
      intro a x hx
      rcases List.mem_cons.mp hx with hxy | hxs
      · subst hxy
        calc x ≤ max a x := le_max_right a x
          _ ≤ ys.foldl max (max a x) := foldl_max_init_le ys (max a x)
          _ = (x :: ys).foldl max a := rfl
      · exact ih (max a y) x hxs

lemma foldl_max_cases (l : List ℚ) : ∀ a, l.foldl max a = a ∨ l.foldl max a ∈ l := by
  induction l with
  | nil => intro a; left; rfl
  | cons y ys ih =>
      intro a
      have h : (y :: ys).foldl max a = ys.foldl max (max a y) := rfl
      rcases ih (max a y) with heq | hmem
      · rcases max_choice a y with hma | hmy
        · left; rw [h, heq, hma]
        · right; rw [h, heq, hmy]; exact List.mem_cons_self y ys
      · right; rw [h]; exact List.mem_cons_of_mem y hmem

lemma npMin_le (l : List ℚ) (hl : l ≠ []) : ∀ x ∈ l, npMin l ≤ x := by
  cases l with
  | nil => exact absurd rfl hl
  | cons y ys =>
      intro x hx
      rcases List.mem_cons.mp hx with hxy | hxs
      · subst hxy; exact foldl_min_le_init ys x
      · exact foldl_min_le_mem ys y x hxs

lemma npMin_mem (l : List ℚ) (hl : l ≠ []) : npMin l ∈ l := by
  cases l with
  | nil => exact absurd rfl hl
  | cons y ys =>
      rcases foldl_min_cases ys y with heq | hmem
      · show ys.foldl min y ∈ y :: ys
        rw [heq]; exact List.mem_cons_self y ys
      · exact List.mem_cons_of_mem y hmem

lemma npMax_le (l : List ℚ) (hl : l ≠ []) : ∀ x ∈ l, x ≤ npMax l := by
  cases l with
  | nil => exact absurd rfl hl
  | cons y ys =>
      intro x hx
      rcases List.mem_cons.mp hx with hxy | hxs
      · subst hxy; exact foldl_max_init_le ys x
      · exact foldl_max_mem_le ys y x hxs

lemma npMax_mem (l : List ℚ) (hl : l ≠ []) : npMax l ∈ l := by
  cases l with
  | nil => exact absurd rfl hl
  | cons y ys =>
      rcases foldl_max_cases ys y with heq | hmem
      · show ys.foldl max y ∈ y :: ys
        rw [heq]; exact List.mem_cons_self y ys
      · exact List.mem_cons_of_mem y hmem

/-- A concrete run of the calibration on `data49`: it fails for lack of
data. -/
lemma run49 : CalcCalibration data49 CalibResult.insufficientData :=
  CalcCalibration.insufficient data49 (by simp [data49])

/-! ### C7: fewer than 50 samples fail, 50 or more never raise that error -/

/-- Claim C7: for every calibration input with fewer than 50 samples the
fit fails with the insufficient-data error and produces no calibration
parameters; with 50 or more samples this error is not raised. -/
theorem C7_insufficient_data (data : List RawSample) (r : CalibResult)
    (h : CalcCalibration data r) :
    (data.length < 50 → r = CalibResult.insufficientData) ∧
    (50 ≤ data.length → r ≠ CalibResult.insufficientData) ∧
    (r = CalibResult.insufficientData → ∀ off T, r ≠ CalibResult.ok off T) := by
  cases h with
  | insufficient hlt =>
      refine ⟨fun _ => rfl, fun hge => absurd hlt (by omega), ?_⟩
      intro _ off T hok
      exact CalibResult.noConfusion hok
  | ok v Q lam h50 hv heig =>
      refine ⟨fun hlt => absurd hlt (by omega), fun _ hbad => ?_, ?_⟩
      · exact CalibResult.noConfusion hbad
      · intro hbad
        exact absurd hbad (by intro hbad2; exact CalibResult.noConfusion hbad2)

/-- Witness for C7 at the concrete 49-sample dataset. -/
theorem C7_insufficient_data_witness :
    CalibResult.insufficientData = CalibResult.insufficientData ∧ data49.length < 50 :=
  ⟨(C7_insufficient_data data49 CalibResult.insufficientData run49).1 (by simp [data49]),
   by simp [data49]⟩

/-! ### C5: the hard-iron offset is the per-axis midpoint of min and max -/

/-- Claim C5: for every accepted calibration sample set, the hard-iron
offset returned is, per axis, the midpoint of that axis's minimum and
maximum over all samples. -/
theorem C5_hard_iron_midpoint (data : List RawSample) (off : Fin 3 → ℚ)
    (T : Matrix (Fin 3) (Fin 3) ℝ) (h : CalcCalibration data (CalibResult.ok off T))
    (j : Fin 3) :
    ∃ a b, a ∈ axisVals data j ∧ b ∈ axisVals data j ∧
      (∀ x ∈ axisVals data j, a ≤ x ∧ x ≤ b) ∧ off j = (b + a) / 2 := by
  cases h with
  | ok v Q lam h50 hv heig =>
      have hne : axisVals data j ≠ [] := by
        intro hempty
        have hlen : data.length = 0 := by
          have := congrArg List.length hempty
          simpa [axisVals] using this
        omega
      exact ⟨npMin (axisVals data j), npMax (axisVals data j),
        npMin_mem _ hne, npMax_mem _ hne,
        fun x hx => ⟨npMin_le _ hne x hx, npMax_le _ hne x hx⟩, rfl⟩

/-! ### Algebra of the normal equations -/

lemma finsum_list_sum_comm {α : Type} (l : List α) (g : α → Fin 6 → ℚ) :
    ∑ j : Fin 6, (l.map (fun a => g a j)).sum = (l.map (fun a => ∑ j : Fin 6, g a j)).sum := by
  induction l with
  | nil => simp
  | cons a as ih => simp [List.map_cons, List.sum_cons, Finset.sum_add_distrib, ih]

lemma gramM_mulVec (rows : List (Fin 6 → ℚ)) (v : Fin 6 → ℚ) (j : Fin 6) :
    (gramM rows).mulVec v j = (rows.map (fun r => r j * dot6 r v)).sum := by
  have h1 : (gramM rows).mulVec v j = ∑ k, (rows.map (fun r => r j * r k)).sum * v k := by
    simp [Matrix.mulVec, Matrix.dotProduct, gramM]
  rw [h1]
  calc ∑ k, (rows.map (fun r => r j * r k)).sum * v k
      = ∑ k, (rows.map (fun r => r j * r k * v k)).sum := by
        refine Finset.sum_congr rfl fun k _ => ?_
        exact (List.sum_map_mul_right rows (fun r => r j * r k) (v k)).symm
    _ = (rows.map (fun r => ∑ k, r j * r k * v k)).sum := finsum_list_sum_comm rows _
    _ = (rows.map (fun r => r j * dot6 r v)).sum := by
        refine congrArg List.sum (List.map_congr_left fun r _ => ?_)
        rw [dot6, Finset.mul_sum]
        exact Finset.sum_congr rfl fun k _ => by ring

lemma normalEq_of_rowdot_one (rows : List (Fin 6 → ℚ)) (v : Fin 6 → ℚ)
    (h : ∀ r ∈ rows, dot6 r v = 1) : NormalEq rows v := by
  funext j
  rw [gramM_mulVec]
  show (rows.map (fun r => r j * dot6 r v)).sum = (rows.map (fun r => r j)).sum
  refine congrArg List.sum (List.map_congr_left fun r hr => ?_)
  rw [h r hr, mul_one]

lemma list_sum_sq_nonneg (l : List ℚ) : 0 ≤ (l.map (fun x => x ^ 2)).sum := by
  induction l with
  | nil => simp
  | cons x xs ih =>
      simp only [List.map_cons, List.sum_cons]
      have := sq_nonneg x
      linarith

lemma list_sum_sq_eq_zero (l : List ℚ) (h : (l.map (fun x => x ^ 2)).sum = 0) :
    ∀ x ∈ l, x = 0 := by
  induction l with
  | nil => intro x hx; cases hx
  | cons y ys ih =>
      intro x hx
      simp only [List.map_cons, List.sum_cons] at h
      have h1 : 0 ≤ (ys.map (fun x => x ^ 2)).sum := list_sum_sq_nonneg ys
      have h2 := sq_nonneg y
      have hy : y ^ 2 = 0 := by linarith
      have hrest : (ys.map (fun x => x ^ 2)).sum = 0 := by linarith
      rcases List.mem_cons.mp hx with hxy | hxs
      · subst hxy
        exact pow_eq_zero_iff (by norm_num) |>.mp hy
      · exact ih hrest x hxs

lemma quadform_eq_sum_sq (rows : List (Fin 6 → ℚ)) (u : Fin 6 → ℚ) :
    ∑ j, u j * ((gramM rows).mulVec u j) = (rows.map (fun r => dot6 r u ^ 2)).sum := by
  calc ∑ j, u j * ((gramM rows).mulVec u j)
      = ∑ j, u j * (rows.map (fun r => r j * dot6 r u)).sum := by
        refine Finset.sum_congr rfl fun j _ => ?_
        rw [gramM_mulVec]
    _ = ∑ j, (rows.map (fun r => u j * (r j * dot6 r u))).sum := by
        refine Finset.sum_congr rfl fun j _ => ?_
        exact (List.sum_map_mul_left rows (fun r => r j * dot6 r u) (u j)).symm
    _ = (rows.map (fun r => ∑ j, u j * (r j * dot6 r u))).sum := finsum_list_sum_comm rows _
    _ = (rows.map (fun r => dot6 r u ^ 2)).sum := by
        refine congrArg List.sum (List.map_congr_left fun r _ => ?_)
        have h1 : ∑ j, u j * (r j * dot6 r u) = (∑ j, r j * u j) * dot6 r u := by
          rw [Finset.sum_mul]
          exact Finset.sum_congr rfl fun j _ => by ring
        rw [h1]
        show (dot6 r u) * dot6 r u = dot6 r u ^ 2
        ring

lemma normalEq_unique (rows : List (Fin 6 → ℚ)) (hspan : SpansFully rows)
    (v w : Fin 6 → ℚ) (hv : NormalEq rows v) (hw : NormalEq rows w) : v = w := by
  have hsub : (gramM rows).mulVec (v - w) = 0 := by
    rw [Matrix.mulVec_sub, hv, hw, sub_self]
  have hzero : (rows.map (fun r => dot6 r (v - w) ^ 2)).sum = 0 := by
    rw [← quadform_eq_sum_sq]
    rw [hsub]
    simp
  have hdots : ∀ r ∈ rows, dot6 r (v - w) = 0 := by
    intro r hr
    have hmap : ((rows.map (fun r => dot6 r (v - w))).map (fun x => x ^ 2)).sum = 0 := by
      rw [List.map_map]
      simpa [Function.comp] using hzero
    exact list_sum_sq_eq_zero _ hmap (dot6 r (v - w)) (List.mem_map_of_mem _ hr)
  have huz : v - w = 0 := hspan (v - w) hdots
  funext k
  have := congrFun huz k
  simp only [Pi.sub_apply, Pi.zero_apply] at this
  linarith

lemma span_component_zero (rows : List (Fin 6 → ℚ)) (j : Fin 6)
    (hz : ∀ r ∈ rows, r j = 0) (v : Fin 6 → ℚ)
    (hv : v ∈ Submodule.span ℚ {r : Fin 6 → ℚ | r ∈ rows}) : v j = 0 := by
  have hle : Submodule.span ℚ {r : Fin 6 → ℚ | r ∈ rows}
      ≤ LinearMap.ker (LinearMap.proj j : (Fin 6 → ℚ) →ₗ[ℚ] ℚ) := by
    refine Submodule.span_le.mpr fun r hr => ?_
    simp only [SetLike.mem_coe, LinearMap.mem_ker, LinearMap.proj_apply]
    exact hz r hr
  have := hle hv
  simpa [LinearMap.mem_ker, LinearMap.proj_apply] using this

lemma list_sum_mem_submodule (S : Submodule ℚ (Fin 6 → ℚ)) :
    ∀ l : List (Fin 6 → ℚ), (∀ x ∈ l, x ∈ S) → l.sum ∈ S := by
  intro l
  induction l with
  | nil => intro _; simp
  | cons x xs ih =>
      intro h
      rw [List.sum_cons]
      exact S.add_mem (h x (List.mem_cons_self x xs))
        (ih fun y hy => h y (List.mem_cons_of_mem x hy))

/-! ### Structure of the soft-iron matrix -/

lemma soft_iron_transpose (Q : Matrix (Fin 3) (Fin 3) ℝ) (lam : Fin 3 → ℝ) :
    (soft_iron_matrix Q lam)ᵀ = soft_iron_matrix Q lam := by
  unfold soft_iron_matrix
  rw [Matrix.transpose_mul, Matrix.transpose_mul, Matrix.transpose_transpose,
    Matrix.diagonal_transpose, Matrix.mul_assoc]

lemma det_soft_iron_eq_zero (M Q : Matrix (Fin 3) (Fin 3) ℝ) (lam : Fin 3 → ℝ)
    (heig : IsEigh M Q lam) (hdet : M.det = 0) : (soft_iron_matrix Q lam).det = 0 := by
  obtain ⟨hQ, hdecomp⟩ := heig
  have hdetQ : Q.det * Q.det = 1 := by
    have h1 : (Qᵀ * Q).det = (1 : Matrix (Fin 3) (Fin 3) ℝ).det := by rw [hQ]
    rwa [Matrix.det_mul, Matrix.det_transpose, Matrix.det_one] at h1
  have hprod : ∏ i, lam i = 0 := by
    have h2 : M.det = Q.det * (Matrix.diagonal lam).det * Qᵀ.det := by
      rw [hdecomp, Matrix.det_mul, Matrix.det_mul]
    rw [hdet, Matrix.det_transpose, Matrix.det_diagonal] at h2
    have h3 : 0 = (Q.det * Q.det) * ∏ i, lam i := by
      rw [h2]; ring
    rw [hdetQ, one_mul] at h3
    exact h3.symm
  obtain ⟨i0, _, hl0⟩ := Finset.prod_eq_zero_iff.mp hprod
  unfold soft_iron_matrix
  rw [Matrix.det_mul, Matrix.det_mul, Matrix.det_diagonal]
  have hzero : ∏ i, Real.sqrt (lam i) = 0 :=
    Finset.prod_eq_zero (Finset.mem_univ i0) (by rw [hl0, Real.sqrt_zero])
  rw [hzero]
  ring

lemma soft_iron_of_eigh_one (Q : Matrix (Fin 3) (Fin 3) ℝ) (lam : Fin 3 → ℝ)
    (heig : IsEigh 1 Q lam) : soft_iron_matrix Q lam = 1 := by
  obtain ⟨hQ, hdecomp⟩ := heig
  have hQQT : Q * Qᵀ = 1 := Matrix.mul_eq_one_comm.mp hQ
  have hdiag : Matrix.diagonal lam = 1 := by
    calc Matrix.diagonal lam = (Qᵀ * Q) * Matrix.diagonal lam * (Qᵀ * Q) := by
          rw [hQ]; simp
      _ = Qᵀ * (Q * Matrix.diagonal lam * Qᵀ) * Q := by
          simp only [Matrix.mul_assoc]
      _ = Qᵀ * 1 * Q := by rw [← hdecomp]
      _ = 1 := by rw [Matrix.mul_one, hQ]
  have hlam : ∀ i, lam i = 1 := by
    intro i
    have h1 : Matrix.diagonal lam i i = (1 : Matrix (Fin 3) (Fin 3) ℝ) i i := by
      rw [hdiag]
    rwa [Matrix.diagonal_apply_eq, Matrix.one_apply_eq] at h1
  have hsqrt : (fun i => Real.sqrt (lam i)) = fun _ => (1 : ℝ) := by
    funext i
    rw [hlam i, Real.sqrt_one]
  unfold soft_iron_matrix
  rw [hsqrt, Matrix.diagonal_one, Matrix.mul_one, hQQT]

/-! ### Generic consequences of a successful calibration run -/

lemma calib_ok_inv (data : List RawSample) (off : Fin 3 → ℚ)
    (T : Matrix (Fin 3) (Fin 3) ℝ) (h : CalcCalibration data (CalibResult.ok off T)) :
    off = hard_iron_offset data ∧ 50 ≤ data.length ∧
      ∃ v Q lam, IsLstsqSol (designRows (centered_data data)) v ∧
        IsEigh (ratM (assembleM v)) Q lam ∧ T = soft_iron_matrix Q lam := by
  cases h with
  | ok v Q lam h50 hv heig =>
      exact ⟨rfl, h50, v, Q, lam, hv, heig, rfl⟩

lemma offset_zero_of_sym (data : List RawSample)
    (hsym : ∀ j : Fin 3, npMin (axisVals data j) = - npMax (axisVals data j)) :
    hard_iron_offset data = 0 := by
  funext j
  show (npMax (axisVals data j) + npMin (axisVals data j)) / 2 = 0
  rw [hsym j]
  ring

lemma centered_eq_of_offset_zero (data : List RawSample)
    (h : hard_iron_offset data = 0) : centered_data data = data := by
  unfold centered_data
  rw [h]
  simp

/-! ### Extremum characterisations -/

lemma npMin_eq (l : List ℚ) (hl : l ≠ []) (a : ℚ) (ha : a ∈ l)
    (hb : ∀ x ∈ l, a ≤ x) : npMin l = a :=
  le_antisymm (npMin_le l hl a ha) (hb _ (npMin_mem l hl))

lemma npMax_eq (l : List ℚ) (hl : l ≠ []) (a : ℚ) (ha : a ∈ l)
    (hb : ∀ x ∈ l, x ≤ a) : npMax l = a :=
  le_antisymm (hb _ (npMax_mem l hl)) (npMax_le l hl a ha)

lemma vec6_val_five {α : Type} (a b c d e f : α) :
    (![a, b, c, d, e, f] : Fin 6 → α) 5 = f := rfl

/-! ### The planar dataset: concrete calibration facts -/

lemma designRow_xpos : designRow ![1, 0, 0] = rowX := by
  funext j; fin_cases j <;> norm_num [designRow, rowX]

lemma designRow_xneg : designRow ![-1, 0, 0] = rowX := by
  funext j; fin_cases j <;> norm_num [designRow, rowX]

lemma designRow_ypos : designRow ![0, 1, 0] = rowY := by
  funext j; fin_cases j <;> norm_num [designRow, rowY]

lemma designRow_yneg : designRow ![0, -1, 0] = rowY := by
  funext j; fin_cases j <;> norm_num [designRow, rowY]

lemma axis0_planar : axisVals planar52 0 =
    List.replicate 13 (1 : ℚ) ++ List.replicate 13 (-1) ++
      List.replicate 13 0 ++ List.replicate 13 0 := by
  simp [axisVals, planar52, List.map_append, List.map_replicate]

lemma axis1_planar : axisVals planar52 1 =
    List.replicate 13 (0 : ℚ) ++ List.replicate 13 0 ++
      List.replicate 13 1 ++ List.replicate 13 (-1) := by
  simp [axisVals, planar52, List.map_append, List.map_replicate]

lemma axis2_planar : axisVals planar52 2 =
    List.replicate 13 (0 : ℚ) ++ List.replicate 13 0 ++
      List.replicate 13 0 ++ List.replicate 13 0 := by
  simp [axisVals, planar52, List.map_append, List.map_replicate]

lemma offset_planar : hard_iron_offset planar52 = 0 := by
  funext j
  fin_cases j
  · show (npMax (axisVals planar52 0) + npMin (axisVals planar52 0)) / 2 = 0
    rw [axis0_planar]
    rw [npMin_eq _ (by simp) (-1) (by simp) ?_, npMax_eq _ (by simp) 1 (by simp) ?_]
    · norm_num
    · intro x hx
      simp [List.mem_append, List.mem_replicate] at hx
      rcases hx with rfl | rfl | rfl <;> norm_num
    · intro x hx
      simp [List.mem_append, List.mem_replicate] at hx
      rcases hx with rfl | rfl | rfl <;> norm_num
  · show (npMax (axisVals planar52 1) + npMin (axisVals planar52 1)) / 2 = 0
    rw [axis1_planar]
    rw [npMin_eq _ (by simp) (-1) (by simp) ?_, npMax_eq _ (by simp) 1 (by simp) ?_]
    · norm_num
    · intro x hx
      simp [List.mem_append, List.mem_replicate] at hx
      rcases hx with rfl | rfl | rfl <;> norm_num
    · intro x hx
      simp [List.mem_append, List.mem_replicate] at hx
      rcases hx with rfl | rfl | rfl <;> norm_num
  · show (npMax (axisVals planar52 2) + npMin (axisVals planar52 2)) / 2 = 0
    rw [axis2_planar]
    rw [npMin_eq _ (by simp) 0 (by simp) ?_, npMax_eq _ (by simp) 0 (by simp) ?_]
    · norm_num
    · intro x hx
      simp [List.mem_append, List.mem_replicate] at hx
      rcases hx with rfl <;> norm_num
    · intro x hx
      simp [List.mem_append, List.mem_replicate] at hx
      rcases hx with rfl <;> norm_num

lemma rowsP_eq : designRows (centered_data planar52) =
    List.replicate 13 rowX ++ List.replicate 13 rowX ++
      List.replicate 13 rowY ++ List.replicate 13 rowY := by
  rw [centered_eq_of_offset_zero planar52 offset_planar]
  simp [designRows, planar52, List.map_append, List.map_replicate,
    designRow_xpos, designRow_xneg, designRow_ypos, designRow_yneg]

lemma rowsP_mem (r : Fin 6 → ℚ) (hr : r ∈ designRows (centered_data planar52)) :
    r = rowX ∨ r = rowY := by
  rw [rowsP_eq] at hr
  simp [List.mem_append, List.mem_replicate] at hr
  tauto

lemma rowX_at0 : rowX 0 = 1 := rfl

lemma rowX_at1 : rowX 1 = 0 := rfl

lemma rowY_at0 : rowY 0 = 0 := rfl

lemma rowY_at1 : rowY 1 = 1 := rfl

lemma dot6_rowX (v : Fin 6 → ℚ) : dot6 rowX v = v 0 := by
  simp [dot6, rowX, Fin.sum_univ_six, vec6_val_five]

lemma dot6_rowY (v : Fin 6 → ℚ) : dot6 rowY v = v 1 := by
  simp [dot6, rowY, Fin.sum_univ_six, vec6_val_five]

lemma normalEq_planar : NormalEq (designRows (centered_data planar52)) vP := by
  refine normalEq_of_rowdot_one _ _ ?_
  intro r hr
  rcases rowsP_mem r hr with rfl | rfl
  · rw [dot6_rowX]; norm_num [vP]
  · rw [dot6_rowY]; norm_num [vP]

lemma vP_eq_add : vP = rowX + rowY := by
  funext j; fin_cases j <;> norm_num [vP, rowX, rowY, vec6_val_five]

lemma isLstsq_planar : IsLstsqSol (designRows (centered_data planar52)) vP := by
  refine ⟨normalEq_planar, ?_⟩
  rw [vP_eq_add]
  refine Submodule.add_mem _ (Submodule.subset_span ?_) (Submodule.subset_span ?_)
  · show rowX ∈ designRows (centered_data planar52)
    rw [rowsP_eq]; simp
  · show rowY ∈ designRows (centered_data planar52)
    rw [rowsP_eq]; simp

lemma lstsq_planar_unique (v : Fin 6 → ℚ)
    (hv : IsLstsqSol (designRows (centered_data planar52)) v) : v = vP := by
  obtain ⟨hNE, hspan⟩ := hv
  have hcomp : ∀ j : Fin 6, j = 2 ∨ j = 3 ∨ j = 4 ∨ j = 5 → v j = 0 := by
    intro j hj
    refine span_component_zero _ j ?_ v hspan
    intro r hr
    rcases rowsP_mem r hr with rfl | rfl <;>
      rcases hj with rfl | rfl | rfl | rfl <;>
        norm_num [rowX, rowY, vec6_val_five]
  have e0 := congrFun hNE 0
  have e1 := congrFun hNE 1
  rw [gramM_mulVec] at e0 e1
  rw [rowsP_eq] at e0 e1
  simp only [atOnes, rowsP_eq, List.map_append, List.sum_append, List.map_replicate,
    List.sum_replicate, dot6_rowX, dot6_rowY, rowX_at0, rowX_at1, rowY_at0, rowY_at1,
    smul_eq_mul, nsmul_eq_mul, Nat.cast_ofNat, mul_one, mul_zero, zero_mul, one_mul,
    add_zero, zero_add] at e0 e1
  funext k
  fin_cases k
  · show v 0 = vP 0
    norm_num [vP]
    linarith
  · show v 1 = vP 1
    norm_num [vP]
    linarith
  · show v 2 = vP 2
    rw [hcomp 2 (by norm_num)]; norm_num [vP]
  · show v 3 = vP 3
    rw [hcomp 3 (by norm_num)]; norm_num [vP]
  · show v 4 = vP 4
    rw [hcomp 4 (by norm_num)]; norm_num [vP, vec6_val_five]
  · show v 5 = vP 5
    rw [hcomp 5 (by norm_num)]; norm_num [vP, vec6_val_five]

lemma ratM_assembleM_vP : ratM (assembleM vP) =
    Matrix.of ![![(1 : ℝ), 0, 0], ![0, 1, 0], ![0, 0, 0]] := by
  funext i j
  fin_cases i <;> fin_cases j <;>
    simp [ratM, assembleM, vP, Matrix.map_apply, Matrix.of_apply, vec6_val_five,
      Matrix.vecHead, Matrix.vecTail]

lemma eigh_planar : IsEigh (ratM (assembleM vP)) 1 lamP := by
  constructor
  · simp
  · rw [Matrix.transpose_one, Matrix.mul_one, Matrix.one_mul, ratM_assembleM_vP]
    funext i j
    fin_cases i <;> fin_cases j <;>
      simp [Matrix.diagonal, lamP, Matrix.of_apply, Matrix.vecHead, Matrix.vecTail]

lemma soft_iron_planar : soft_iron_matrix 1 lamP = planarT := by
  have harg : (fun i => Real.sqrt (lamP i)) = (![1, 1, 0] : Fin 3 → ℝ) := by
    funext i
    fin_cases i <;>
      simp [lamP, Real.sqrt_one, Real.sqrt_zero, Matrix.vecHead, Matrix.vecTail]
  unfold soft_iron_matrix planarT
  rw [Matrix.transpose_one, Matrix.mul_one, Matrix.one_mul, harg]

lemma runPlanar : CalcCalibration planar52 (CalibResult.ok 0 planarT) := by
  have h := CalcCalibration.ok planar52 vP 1 lamP (by norm_num [planar52])
    isLstsq_planar eigh_planar
  rwa [offset_planar, soft_iron_planar] at h

lemma detM_planar : (ratM (assembleM vP)).det = 0 := by
  rw [ratM_assembleM_vP, Matrix.det_fin_three]
  simp [Matrix.of_apply, Matrix.vecHead, Matrix.vecTail]

lemma planarT_det : planarT.det = 0 := by
  simp [planarT, Matrix.det_diagonal, Fin.prod_univ_three]

lemma M_planar_singular : (assembleM vP).mulVec ![0, 0, 1] = 0 := by
  funext i
  fin_cases i <;>
    simp [Matrix.mulVec, Matrix.dotProduct, Fin.sum_univ_three, assembleM, vP,
      Matrix.of_apply, vec6_val_five]

/-! ### C1: get the degenerate planar sweep through the calibration -/

/-- Claim C1 (the code violates it): on a 52-sample sweep confined to the
plane `z = 0` the assembled matrix `M = diag(1, 1, 0)` has the
non-positive eigenvalue `0`, yet the calibration does not fail — the only
error check is the sample count — and every run returns the singular
soft-iron transform `diag(1, 1, 0)` (determinant 0, hence the
non-positive eigenvalue 0), the square root of the zero eigenvalue having
been passed through `sqrt` unchecked. -/
theorem C1_degenerate_unchecked :
    (¬ CalcCalibration planar52 CalibResult.insufficientData) ∧
    CalcCalibration planar52 (CalibResult.ok 0 planarT) ∧
    ((assembleM vP).mulVec ![0, 0, 1] = 0 ∧ (![0, 0, 1] : Fin 3 → ℚ) ≠ 0) ∧
    planarT.det = 0 ∧
    (∀ off T, CalcCalibration planar52 (CalibResult.ok off T) → T.det = 0) := by
  refine ⟨?_, runPlanar, ⟨M_planar_singular, ?_⟩, planarT_det, ?_⟩
  · intro h
    cases h with
    | insufficient hlt => norm_num [planar52] at hlt
  · intro h
    have h2 := congrFun h 2
    simp at h2
  · intro off T h
    obtain ⟨hoff, h50, v, Q, lam, hv, heig, hT⟩ := calib_ok_inv planar52 off T h
    have hveq : v = vP := lstsq_planar_unique v hv
    rw [hT]
    exact det_soft_iron_eq_zero _ Q lam (hveq ▸ heig) detM_planar

/-- Witness for the universally quantified conjunct of C1 at the concrete
run the code makes on the planar dataset. -/
theorem C1_degenerate_unchecked_witness : planarT.det = 0 :=
  C1_degenerate_unchecked.2.2.2.2 0 planarT runPlanar

/-! ### C4: the soft-iron transform is Q·sqrt(Λ)·Qᵀ and symmetric -/

/-- Claim C4: every accepted calibration returns the soft-iron transform
`Q · sqrt(Λ) · Qᵀ` for an eigendecomposition `M = Q Λ Qᵀ` of the matrix
assembled from the six least-squares ellipsoid coefficients of the
offset-centered samples, and that transform is symmetric. -/
theorem C4_soft_iron_eigendecomposition (data : List RawSample) (off : Fin 3 → ℚ)
    (T : Matrix (Fin 3) (Fin 3) ℝ)
    (h : CalcCalibration data (CalibResult.ok off T)) :
    Tᵀ = T ∧ ∃ v Q lam, IsLstsqSol (designRows (centered_data data)) v ∧
      IsEigh (ratM (assembleM v)) Q lam ∧
      T = Q * Matrix.diagonal (fun i => Real.sqrt (lam i)) * Qᵀ := by
  obtain ⟨hoff, h50, v, Q, lam, hv, heig, hT⟩ := calib_ok_inv data off T h
  subst hT
  exact ⟨soft_iron_transpose Q lam, v, Q, lam, hv, heig, rfl⟩

/-- Witness for C4 at the planar run. -/
theorem C4_soft_iron_eigendecomposition_witness : planarTᵀ = planarT :=
  (C4_soft_iron_eigendecomposition planar52 0 planarT runPlanar).1

/-- Witness for C5 at the planar run. -/
theorem C5_hard_iron_midpoint_witness :
    ∃ a b, a ∈ axisVals planar52 0 ∧ b ∈ axisVals planar52 0 ∧
      (∀ x ∈ axisVals planar52 0, a ≤ x ∧ x ≤ b) ∧
      (0 : Fin 3 → ℚ) 0 = (b + a) / 2 :=
  C5_hard_iron_midpoint planar52 0 planarT runPlanar 0

/-! ### The unit-sphere dataset: concrete calibration facts -/

lemma sphere_perm : ∀ p ∈ permPoints, p 0 ^ 2 + p 1 ^ 2 + p 2 ^ 2 = 1 := by
  intro p hp
  fin_cases hp <;> norm_num [Matrix.vecHead, Matrix.vecTail]

lemma sphere_data72 : ∀ p ∈ data72, p 0 ^ 2 + p 1 ^ 2 + p 2 ^ 2 = 1 := by
  intro p hp
  have hpp : p ∈ permPoints := by
    simp only [data72, List.mem_append] at hp
    tauto
  exact sphere_perm p hpp

lemma perm_bounds : ∀ p ∈ permPoints, ∀ j : Fin 3, -(2/3 : ℚ) ≤ p j ∧ p j ≤ 2/3 := by
  intro p hp j
  fin_cases hp <;> fin_cases j <;>
    norm_num [Matrix.vecHead, Matrix.vecTail]

lemma mem_data72_of_mem_perm (p : RawSample) (hp : p ∈ permPoints) : p ∈ data72 := by
  simp only [data72, List.mem_append]
  tauto

lemma sym_data72 : ∀ j : Fin 3, npMin (axisVals data72 j) = - npMax (axisVals data72 j) := by
  intro j
  have hne : axisVals data72 j ≠ [] := by
    simp [axisVals, data72, permPoints]
  have hbound : ∀ x ∈ axisVals data72 j, -(2/3 : ℚ) ≤ x ∧ x ≤ 2/3 := by
    intro x hx
    obtain ⟨p, hp, rfl⟩ := List.mem_map.mp hx
    have hpp : p ∈ permPoints := by
      simp only [data72, List.mem_append] at hp
      tauto
    exact perm_bounds p hpp j
  have hmin : npMin (axisVals data72 j) = -(2/3 : ℚ) := by
    refine npMin_eq _ hne _ ?_ (fun x hx => (hbound x hx).1)
    fin_cases j
    · refine List.mem_map.mpr ⟨![-2/3, 1/3, 2/3], ?_, by norm_num⟩
      exact mem_data72_of_mem_perm _ (by simp [permPoints])
    · refine List.mem_map.mpr ⟨![1/3, -2/3, 2/3], ?_, by norm_num⟩
      exact mem_data72_of_mem_perm _ (by simp [permPoints])
    · refine List.mem_map.mpr ⟨![1/3, 2/3, -2/3], ?_, by norm_num [Matrix.vecHead, Matrix.vecTail]⟩
      exact mem_data72_of_mem_perm _ (by simp [permPoints])
  have hmax : npMax (axisVals data72 j) = (2/3 : ℚ) := by
    refine npMax_eq _ hne _ ?_ (fun x hx => (hbound x hx).2)
    fin_cases j
    · refine List.mem_map.mpr ⟨![2/3, 1/3, 2/3], ?_, by norm_num⟩
      exact mem_data72_of_mem_perm _ (by simp [permPoints])
    · refine List.mem_map.mpr ⟨![1/3, 2/3, 2/3], ?_, by norm_num⟩
      exact mem_data72_of_mem_perm _ (by simp [permPoints])
    · refine List.mem_map.mpr ⟨![1/3, 2/3, 2/3], ?_, by norm_num [Matrix.vecHead, Matrix.vecTail]⟩
      exact mem_data72_of_mem_perm _ (by simp [permPoints])
  rw [hmin, hmax]

lemma offset72 : hard_iron_offset data72 = 0 :=
  offset_zero_of_sym data72 sym_data72

lemma dot6_designRow (p : RawSample) (u : Fin 6 → ℚ) :
    dot6 (designRow p) u = p 0 ^ 2 * u 0 + p 1 ^ 2 * u 1 + p 2 ^ 2 * u 2
      + 2 * p 0 * p 1 * u 3 + 2 * p 0 * p 2 * u 4 + 2 * p 1 * p 2 * u 5 := by
  simp [dot6, designRow, Fin.sum_univ_six, vec6_val_five]

lemma spans_data72 : SpansFully (designRows (centered_data data72)) := by
  rw [centered_eq_of_offset_zero data72 offset72]
  intro u hu
  have key : ∀ p ∈ permPoints, dot6 (designRow p) u = 0 := by
    intro p hp
    exact hu (designRow p) (List.mem_map.mpr ⟨p, mem_data72_of_mem_perm p hp, rfl⟩)
  have h1 := key ![1/3, 2/3, 2/3] (by simp [permPoints])
  have h2 := key ![-1/3, 2/3, 2/3] (by simp [permPoints])
  have h3 := key ![1/3, -2/3, 2/3] (by simp [permPoints])
  have h4 := key ![1/3, 2/3, -2/3] (by simp [permPoints])
  have h5 := key ![2/3, 1/3, 2/3] (by simp [permPoints])
  have h6 := key ![2/3, 2/3, 1/3] (by simp [permPoints])
  rw [dot6_designRow] at h1 h2 h3 h4 h5 h6
  norm_num [Matrix.vecHead, Matrix.vecTail] at h1 h2 h3 h4 h5 h6
  funext k
  fin_cases k
  · show u 0 = (0 : ℚ)
    linarith
  · show u 1 = (0 : ℚ)
    linarith
  · show u 2 = (0 : ℚ)
    linarith
  · show u 3 = (0 : ℚ)
    linarith
  · show u 4 = (0 : ℚ)
    linarith
  · show u 5 = (0 : ℚ)
    linarith

lemma dot6_designRow_vSphere (p : RawSample) :
    dot6 (designRow p) vSphere = p 0 ^ 2 + p 1 ^ 2 + p 2 ^ 2 := by
  rw [dot6_designRow]
  norm_num [vSphere, vec6_val_five, Matrix.vecHead, Matrix.vecTail]

lemma normalEq_sphere (data : List RawSample)
    (hsph : ∀ p ∈ data, p 0 ^ 2 + p 1 ^ 2 + p 2 ^ 2 = 1) :
    NormalEq (designRows data) vSphere := by
  refine normalEq_of_rowdot_one _ _ ?_
  intro r hr
  obtain ⟨p, hp, rfl⟩ := List.mem_map.mp hr
  rw [dot6_designRow_vSphere, hsph p hp]

lemma assembleM_vSphere : assembleM vSphere = 1 := by
  funext i j
  fin_cases i <;> fin_cases j <;>
    simp [assembleM, vSphere, Matrix.of_apply, vec6_val_five, Matrix.one_apply,
      Matrix.vecHead, Matrix.vecTail]

lemma ratM_one : ratM (1 : Matrix (Fin 3) (Fin 3) ℚ) = 1 := by
  unfold ratM
  exact Matrix.map_one _ Rat.cast_zero Rat.cast_one

lemma classX_sum : designRow ![1/3, 2/3, 2/3] + designRow ![-1/3, 2/3, 2/3]
    + designRow ![1/3, -2/3, 2/3] + designRow ![-1/3, -2/3, 2/3]
    = ![4/9, 16/9, 16/9, 0, 0, 0] := by
  funext k
  fin_cases k <;>
    norm_num [designRow, Pi.add_apply, vec6_val_five, Matrix.vecHead, Matrix.vecTail]

lemma classY_sum : designRow ![2/3, 1/3, 2/3] + designRow ![-2/3, 1/3, 2/3]
    + designRow ![2/3, 1/3, -2/3] + designRow ![-2/3, 1/3, -2/3]
    = ![16/9, 4/9, 16/9, 0, 0, 0] := by
  funext k
  fin_cases k <;>
    norm_num [designRow, Pi.add_apply, vec6_val_five, Matrix.vecHead, Matrix.vecTail]

lemma classZ_sum : designRow ![2/3, 2/3, 1/3] + designRow ![-2/3, 2/3, 1/3]
    + designRow ![2/3, -2/3, 1/3] + designRow ![-2/3, -2/3, 1/3]
    = ![16/9, 16/9, 4/9, 0, 0, 0] := by
  funext k
  fin_cases k <;>
    norm_num [designRow, Pi.add_apply, vec6_val_five, Matrix.vecHead, Matrix.vecTail]

lemma rows72_sum_span :
    vSphere ∈ Submodule.span ℚ {r : Fin 6 → ℚ | r ∈ designRows (centered_data data72)} := by
  rw [centered_eq_of_offset_zero data72 offset72]
  have hsum : vSphere = (1/4 : ℚ) •
      ((designRow ![1/3, 2/3, 2/3] + designRow ![-1/3, 2/3, 2/3]
          + designRow ![1/3, -2/3, 2/3] + designRow ![-1/3, -2/3, 2/3])
        + (designRow ![2/3, 1/3, 2/3] + designRow ![-2/3, 1/3, 2/3]
          + designRow ![2/3, 1/3, -2/3] + designRow ![-2/3, 1/3, -2/3])
        + (designRow ![2/3, 2/3, 1/3] + designRow ![-2/3, 2/3, 1/3]
          + designRow ![2/3, -2/3, 1/3] + designRow ![-2/3, -2/3, 1/3])) := by
    rw [classX_sum, classY_sum, classZ_sum]
    funext k
    fin_cases k <;>
      norm_num [vSphere, Pi.add_apply, vec6_val_five, Matrix.vecHead, Matrix.vecTail,
        smul_eq_mul]
  rw [hsum]
  refine Submodule.smul_mem _ _ ?_
  have hmem : ∀ p ∈ permPoints,
      designRow p ∈ Submodule.span ℚ {r : Fin 6 → ℚ | r ∈ designRows data72} := by
    intro p hp
    exact Submodule.subset_span (List.mem_map.mpr ⟨p, mem_data72_of_mem_perm p hp, rfl⟩)
  refine Submodule.add_mem _ (Submodule.add_mem _ ?_ ?_) ?_ <;>
    refine Submodule.add_mem _ (Submodule.add_mem _ (Submodule.add_mem _ ?_ ?_) ?_) ?_ <;>
      exact hmem _ (by simp [permPoints])

lemma isLstsq_sphere72 : IsLstsqSol (designRows (centered_data data72)) vSphere := by
  constructor
  · rw [centered_eq_of_offset_zero data72 offset72]
    exact normalEq_sphere data72 sphere_data72
  · exact rows72_sum_span

lemma eigh_sphere : IsEigh (ratM (assembleM vSphere)) 1 (fun _ => 1) := by
  constructor
  · simp
  · rw [assembleM_vSphere, ratM_one]
    simp [Matrix.transpose_one, Matrix.diagonal_one]

lemma soft_iron_id : soft_iron_matrix 1 (fun _ => (1 : ℝ)) = 1 := by
  unfold soft_iron_matrix
  simp [Real.sqrt_one, Matrix.diagonal_one]

lemma run72 : CalcCalibration data72 (CalibResult.ok 0 1) := by
  have h := CalcCalibration.ok data72 vSphere 1 (fun _ => 1)
    (by norm_num [data72, permPoints]) isLstsq_sphere72 eigh_sphere
  rwa [offset72, soft_iron_id] at h

/-! ### C6: round-trip on undistorted unit-sphere data -/

/-- Claim C6: on at least 50 samples lying exactly on the unit sphere,
with per-axis-symmetric coverage (per-axis minimum equal to minus the
maximum) and full orientation coverage (the design rows span all six
coefficient directions), every calibration run recovers the zero offset
and the identity soft-iron transform — exactly, which is stronger than
the floating tolerance the claim allows. -/
theorem C6_unit_sphere_roundtrip (data : List RawSample)
    (h50 : 50 ≤ data.length)
    (hsph : ∀ p ∈ data, p 0 ^ 2 + p 1 ^ 2 + p 2 ^ 2 = 1)
    (hsym : ∀ j : Fin 3, npMin (axisVals data j) = - npMax (axisVals data j))
    (hfull : SpansFully (designRows (centered_data data)))
    (off : Fin 3 → ℚ) (T : Matrix (Fin 3) (Fin 3) ℝ)
    (h : CalcCalibration data (CalibResult.ok off T)) :
    off = 0 ∧ T = 1 := by
  obtain ⟨hoff, _, v, Q, lam, hv, heig, hT⟩ := calib_ok_inv data off T h
  have hzero : hard_iron_offset data = 0 := offset_zero_of_sym data hsym
  have hcent : centered_data data = data := centered_eq_of_offset_zero data hzero
  have hNEs : NormalEq (designRows (centered_data data)) vSphere := by
    rw [hcent]
    exact normalEq_sphere data hsph
  have hveq : v = vSphere := normalEq_unique _ hfull v vSphere hv.1 hNEs
  have hM : ratM (assembleM v) = 1 := by rw [hveq, assembleM_vSphere, ratM_one]
  refine ⟨by rw [hoff, hzero], ?_⟩
  rw [hT]
  exact soft_iron_of_eigh_one Q lam (hM ▸ heig)

/-- Witness for C6 at the 72-point unit-sphere dataset. -/
theorem C6_unit_sphere_roundtrip_witness :
    (0 : Fin 3 → ℚ) = 0 ∧ (1 : Matrix (Fin 3) (Fin 3) ℝ) = 1 :=
  C6_unit_sphere_roundtrip data72 (by norm_num [data72, permPoints]) sphere_data72
    sym_data72 spans_data72 0 1 run72

/-! ### C2: the solver model is bounded and flag-carrying -/

lemma runMinimize_spec (step : (Fin 3 → ℝ) → (Fin 3 → ℝ)) (conv : (Fin 3 → ℝ) → Bool) :
    ∀ (fuel : ℕ) (x : Fin 3 → ℝ),
      (runMinimize step conv fuel x).nit ≤ fuel ∧
      ((runMinimize step conv fuel x).success = true ∨
        (runMinimize step conv fuel x).nit = fuel) := by
  intro fuel
  induction fuel with
  | zero =>
      intro x
      exact ⟨Nat.le_refl 0, Or.inr rfl⟩
  | succ n ih =>
      intro x
      obtain ⟨ih1, ih2⟩ := ih (step x)
      by_cases hc : conv x = true
      · constructor <;> simp [runMinimize, hc]
      · have hrw : runMinimize step conv (n + 1) x
            = ⟨(runMinimize step conv n (step x)).x,
               (runMinimize step conv n (step x)).success,
               (runMinimize step conv n (step x)).nit + 1⟩ := by
          simp [runMinimize, hc]
        rw [hrw]
        constructor
        · exact Nat.succ_le_succ ih1
        · rcases ih2 with h | h
          · exact Or.inl h
          · exact Or.inr (by rw [show (⟨(runMinimize step conv n (step x)).x,
              (runMinimize step conv n (step x)).success,
              (runMinimize step conv n (step x)).nit + 1⟩ : OptimizeResult).nit
                = (runMinimize step conv n (step x)).nit + 1 from rfl, h])

/-- Claim C2 (spec-modelled solver internals): for every measured field
vector and initial guess, the position solve runs at most its iteration
budget of 2000 iterations, and either it converged (success flag set) or
the budget was exhausted with the flag cleared and the best point still
returned — the result always carries the estimate and the
convergence-quality flag, by construction, rather than an exception. -/
theorem C2_solver_bounded (step : (Fin 3 → ℝ) → (Fin 3 → ℝ) → (Fin 3 → ℝ))
    (conv : (Fin 3 → ℝ) → (Fin 3 → ℝ) → Bool) (Bmeas guess : Fin 3 → ℝ) :
    (solve_position step conv Bmeas guess).nit ≤ 2000 ∧
    ((solve_position step conv Bmeas guess).success = true ∨
      (solve_position step conv Bmeas guess).nit = 2000) :=
  runMinimize_spec (step Bmeas) (conv Bmeas) maxiter guess

/-! ### C3: warm-started tracking -/

lemma trackingLoop_length (f : (Fin 3 → ℝ) → (Fin 3 → ℝ) → (Fin 3 → ℝ)) :
    ∀ (l : List (Fin 3 → ℝ)) (g : Fin 3 → ℝ), (trackingLoop f l g).length = l.length := by
  intro l
  induction l with
  | nil => intro g; rfl
  | cons B rest ih =>
      intro g
      simp [trackingLoop, ih]

lemma length_estimated_positions (step : (Fin 3 → ℝ) → (Fin 3 → ℝ) → (Fin 3 → ℝ))
    (conv : (Fin 3 → ℝ) → (Fin 3 → ℝ) → Bool) (noisyB : List (Fin 3 → ℝ)) :
    (estimated_positions step conv noisyB).length = noisyB.length :=
  trackingLoop_length _ noisyB initial_guess

lemma trackingLoop_getElem_succ (f : (Fin 3 → ℝ) → (Fin 3 → ℝ) → (Fin 3 → ℝ)) :
    ∀ (l : List (Fin 3 → ℝ)) (g : Fin 3 → ℝ) (k : ℕ)
      (hk : k + 1 < l.length) (h1 : k + 1 < (trackingLoop f l g).length)
      (h2 : k < (trackingLoop f l g).length),
      (trackingLoop f l g)[k + 1] = f l[k + 1] (trackingLoop f l g)[k] := by
  intro l
  induction l with
  | nil => intro g k hk h1 h2; simp at hk
  | cons B rest ih =>
      intro g k hk h1 h2
      cases k with
      | zero =>
          cases rest with
          | nil => simp at hk
          | cons C rest2 =>
              show (f B g :: trackingLoop f (C :: rest2) (f B g))[1]
                  = f (B :: C :: rest2)[1]
                      ((f B g :: trackingLoop f (C :: rest2) (f B g))[0])
              rw [List.getElem_cons_succ, List.getElem_cons_succ, List.getElem_cons_zero]
              show (f C (f B g) :: trackingLoop f rest2 (f C (f B g)))[0]
                  = f (C :: rest2)[0] (f B g)
              rw [List.getElem_cons_zero, List.getElem_cons_zero]
      | succ k2 =>
          have hk2 : k2 + 1 < rest.length := by simpa using hk
          show (f B g :: trackingLoop f rest (f B g))[k2 + 1 + 1]
              = f (B :: rest)[k2 + 1 + 1]
                  ((f B g :: trackingLoop f rest (f B g))[k2 + 1])
          rw [List.getElem_cons_succ, List.getElem_cons_succ, List.getElem_cons_succ]
          exact ih (f B g) k2 hk2
            (by rw [trackingLoop_length]; exact hk2)
            (by rw [trackingLoop_length]; omega)

/-- Claim C3: in every tracking session, the first solve is seeded with
the documented default initial guess `(0, 0, 0.01)` and solve `k + 1` is
seeded with the estimate returned by solve `k` (warm start). -/
theorem C3_warm_start (step : (Fin 3 → ℝ) → (Fin 3 → ℝ) → (Fin 3 → ℝ))
    (conv : (Fin 3 → ℝ) → (Fin 3 → ℝ) → Bool) (noisyB : List (Fin 3 → ℝ)) :
    (∀ hpos : 0 < (estimated_positions step conv noisyB).length,
      (estimated_positions step conv noisyB).get ⟨0, hpos⟩
        = (solve_position step conv
            (noisyB.get ⟨0, by
              rw [← length_estimated_positions step conv noisyB]; exact hpos⟩)
            initial_guess).x) ∧
    (∀ (k : ℕ) (hk : k + 1 < (estimated_positions step conv noisyB).length),
      (estimated_positions step conv noisyB).get ⟨k + 1, hk⟩
        = (solve_position step conv
            (noisyB.get ⟨k + 1, by
              rw [← length_estimated_positions step conv noisyB]; exact hk⟩)
            ((estimated_positions step conv noisyB).get ⟨k, by omega⟩)).x) := by
  constructor
  · intro hpos
    cases noisyB with
    | nil => simp [estimated_positions, trackingLoop] at hpos
    | cons B rest => rfl
  · intro k hk
    have hkB : k + 1 < noisyB.length := by
      rw [← length_estimated_positions step conv noisyB]
      exact hk
    simp only [List.get_eq_getElem]
    exact trackingLoop_getElem_succ _ noisyB initial_guess k hkB
      (by rw [trackingLoop_length]; exact hkB)
      (by rw [trackingLoop_length]; omega)

/-! ### C8: the live-tracking field delta -/

/-- Claim C8: every delta the live loop emits is the calibrated reading
`(raw − offset) · matrix` minus the reference baseline, the baseline
being the mean of the calibrated reference readings (characterised
multiplicatively: `count • baseline` is their sum). -/
theorem C8_field_delta (rawRefs rawStream : List (Fin 3 → ℝ)) (offset : Fin 3 → ℝ)
    (matrix : Matrix (Fin 3) (Fin 3) ℝ) (h : rawRefs ≠ []) :
    live_tracking rawRefs rawStream offset matrix
        = rawStream.map (fun raw =>
            Matrix.vecMul (raw - offset) matrix - reference_baseline rawRefs offset matrix) ∧
    (rawRefs.length : ℝ) • reference_baseline rawRefs offset matrix
        = (rawRefs.map (fun r => Matrix.vecMul (r - offset) matrix)).sum := by
  constructor
  · rfl
  · funext i
    have hlen : rawRefs.length ≠ 0 := by
      intro hzero
      exact h (List.length_eq_zero.mp hzero)
    have hn : (rawRefs.length : ℝ) ≠ 0 := Nat.cast_ne_zero.mpr hlen
    show (rawRefs.length : ℝ) * reference_baseline rawRefs offset matrix i = _
    unfold reference_baseline
    rw [mul_div_cancel₀ _ hn]
    rfl

/-- Witness for C8 with one reference reading and one streamed reading. -/
theorem C8_field_delta_witness :
    (live_tracking [wRef] [wB] 0 1
        = [wB].map (fun raw =>
            Matrix.vecMul (raw - 0) 1 - reference_baseline [wRef] 0 1)) ∧
    (([wRef].length : ℝ) • reference_baseline [wRef] 0 1
        = ([wRef].map (fun r => Matrix.vecMul (r - 0) 1)).sum) :=
  C8_field_delta [wRef] [wB] 0 1 (by simp)

/-! ### C9: the spectral-power feature and the 1–2 Hz band -/

/-- Claim C9 (spec-modelled Welch internals): the spectral-power feature
at the code's window size and sampling rate (both 50) is `1e12` times the
sum of the Welch PSD of the first lateral axis over exactly the
frequency-grid indices whose frequency lies in the 1–2 Hz band — here
bins 1 and 2, which sit at 1 Hz and 2 Hz. -/
theorem C9_spectral_power_band (psdFn : List ℝ → ℕ → ℕ → ℕ → ℝ)
    (windowB : List (Fin 3 → ℝ)) :
    bandIdx 50 50 = [1, 2] ∧
    welchFreq 50 50 1 = 1 ∧ welchFreq 50 50 2 = 2 ∧
    (∀ k ∈ List.range (50 / 2 + 1),
      (k ∈ bandIdx 50 50 ↔ 1 ≤ welchFreq 50 50 k ∧ welchFreq 50 50 k ≤ 2)) ∧
    spectral_power_feature psdFn windowB 50
      = (psdFn (windowB.map (fun b => b 0)) 50 50 1
          + psdFn (windowB.map (fun b => b 0)) 50 50 2) * 1e12 := by
  have hband : bandIdx 50 50 = [1, 2] := by decide
  refine ⟨hband, by norm_num [welchFreq], by norm_num [welchFreq], ?_, ?_⟩
  · intro k hk
    constructor
    · intro hkband
      rw [hband] at hkband
      simp only [List.mem_cons, List.not_mem_nil, or_false] at hkband
      rcases hkband with rfl | rfl <;> norm_num [welchFreq]
    · intro hfreq
      have hfk : welchFreq 50 50 k = (k : ℚ) := by
        unfold welchFreq
        push_cast
        field_simp
      rw [hfk] at hfreq
      have h1 : 1 ≤ k := by exact_mod_cast hfreq.1
      have h2 : k ≤ 2 := by exact_mod_cast hfreq.2
      rw [hband]
      interval_cases k <;> simp
  · unfold spectral_power_feature
    rw [hband]
    simp [List.map_cons, List.sum_cons, List.sum_nil]

/-! ### C10: window starts and the uncovered tail -/

/-- Claim C10: the feature loop iterates over windows whose start indices
are the multiples of `w` strictly below `n − w`; an index is covered by
some window exactly when it is below `w · numWindows`; the uncovered
tail has between 1 and `w` samples — exactly `w` of them when `w`
divides `n` (e.g. samples 700–749 for `n = 750`, `w = 50`); and the
window list built over a length-`n` series has `numWindows` entries. -/
theorem C10_window_coverage (n w : ℕ) (hw : 0 < w) (hn : 0 < n) :
    (∀ s ∈ window_starts n w, w ∣ s ∧ s < n - w) ∧
    (∀ i : ℕ, (∃ s ∈ window_starts n w, s ≤ i ∧ i < s + w) ↔ i < w * numWindows n w) ∧
    (1 ≤ n - w * numWindows n w ∧ n - w * numWindows n w ≤ w) ∧
    (w ∣ n → n - w * numWindows n w = w) ∧
    (∀ B : List (Fin 3 → ℝ), B.length = n → (feature_windows B w).length = numWindows n w) := by
  have hdm := Nat.div_add_mod ((n - w) + (w - 1)) w
  have hr : ((n - w) + (w - 1)) % w < w := Nat.mod_lt _ hw
  have hnum : numWindows n w = ((n - w) + (w - 1)) / w := rfl
  have part3 : 1 ≤ n - w * numWindows n w ∧ n - w * numWindows n w ≤ w := by
    rw [hnum]
    rcases Nat.eq_zero_or_pos (((n - w) + (w - 1)) / w) with h | h
    · rw [h, Nat.mul_zero] at hdm ⊢
      omega
    · have hle : w ≤ w * (((n - w) + (w - 1)) / w) := Nat.le_mul_of_pos_right w h
      revert hdm hle
      generalize w * (((n - w) + (w - 1)) / w) = t
      intro hdm hle
      omega
  refine ⟨?_, ?_, part3, ?_, ?_⟩
  · intro s hs
    obtain ⟨k, hkmem, rfl⟩ := List.mem_map.mp hs
    rw [List.mem_range] at hkmem
    refine ⟨dvd_mul_left w k, ?_⟩
    have h1 : k * w + w ≤ numWindows n w * w := by
      have h2 := Nat.mul_le_mul_right w (Nat.succ_le_of_lt hkmem)
      rwa [Nat.succ_mul] at h2
    have h3 : numWindows n w * w = w * numWindows n w := Nat.mul_comm _ _
    have h4 := part3.1
    omega
  · intro i
    constructor
    · rintro ⟨s, hs, hsi, hiw⟩
      obtain ⟨k, hkmem, rfl⟩ := List.mem_map.mp hs
      rw [List.mem_range] at hkmem
      have h1 : k * w + w ≤ numWindows n w * w := by
        have h2 := Nat.mul_le_mul_right w (Nat.succ_le_of_lt hkmem)
        rwa [Nat.succ_mul] at h2
      have h3 : numWindows n w * w = w * numWindows n w := Nat.mul_comm _ _
      omega
    · intro hi
      have hk : i / w < numWindows n w := by
        rw [Nat.div_lt_iff_lt_mul hw]
        have h3 : numWindows n w * w = w * numWindows n w := Nat.mul_comm _ _
        omega
      refine ⟨i / w * w, List.mem_map.mpr ⟨i / w, List.mem_range.mpr hk, rfl⟩,
        Nat.div_mul_le_self i w, ?_⟩
      have h5 := Nat.div_add_mod i w
      have h6 : i % w < w := Nat.mod_lt _ hw
      have h7 : w * (i / w) = i / w * w := Nat.mul_comm _ _
      omega
  · rintro ⟨c, hc⟩
    have h1 : numWindows n w < c := by
      by_contra hqc
      push_neg at hqc
      have h2 := Nat.mul_le_mul_left w hqc
      omega
    have h2 : c ≤ numWindows n w + 1 := by
      by_contra hcc
      push_neg at hcc
      have h3 : w * (numWindows n w + 2) ≤ w * c := Nat.mul_le_mul_left w hcc
      have h4 : w * (numWindows n w + 2) = w * numWindows n w + 2 * w := by ring
      omega
    have h5 : c = numWindows n w + 1 := by omega
    have h6 : w * c = w * numWindows n w + w := by
      rw [h5]
      ring
    omega
  · intro B hB
    simp [feature_windows, window_starts, hB]

/-- Witness for C10 at the code's actual parameters: 750 samples, window
size 50 — 14 windows, samples 700–749 never covered. -/
theorem C10_window_coverage_witness :
    (0 < 50) ∧ (0 < 750) ∧ numWindows 750 50 = 14 ∧
    (1 ≤ 750 - 50 * numWindows 750 50 ∧ 750 - 50 * numWindows 750 50 ≤ 50) ∧
    750 - 50 * numWindows 750 50 = 50 :=
  ⟨by norm_num, by norm_num, by norm_num [numWindows],
   (C10_window_coverage 750 50 (by norm_num) (by norm_num)).2.2.1,
   (C10_window_coverage 750 50 (by norm_num) (by norm_num)).2.2.2.1 ⟨15, by norm_num⟩⟩
